import Mathlib

/-!
Verification of the compiler-provisioning core of the `verification` service:
the concurrent download-and-cache subsystem (`DownloadCache`), the shared
integrity/materialization helpers (`check_hashsum`, `write_executable`,
`create_executable`), the refreshable version container
(`RefreshableVersions::update_versions`), and the S3 fetcher
(`Versions::fetch_versions`, `S3Fetcher::fetch_file` / `fetch`).

Rust source files are embedded shallowly:
* pure helpers become Lean functions;
* filesystem, object store and directory listings become explicit oracles /
  state records (`FS`, read functions, bucket listing functions);
* fallible Rust code returning `Result` becomes `Except`;
* tokio interleaving relevant to the single-flight property of
  `DownloadCache` is modelled as a scheduler-indexed small-step semantics in
  which each lock-protected region of `download_cache.rs` is one atomic step.

The `Version` type and its parser live in `version.rs`, which is not part of
the available sources; they are modelled from the specification (see the doc
comments on `Version` and `Version.from_str`).

Definitions come first, then the theorems; the claim-level theorems carry
doc comments naming their claims.
-/

/-- A 32-byte SHA-256 digest (`primitive_types::H256`), modelled as its list
of bytes. -/
abbrev H256 := List Nat

/-- Hashsum mismatch record (`crate::types::Mismatch<H256>`, constructed via
`Mismatch::new(expected, found)`). -/
structure Mismatch (α : Type) where
  expected : α
  found : α
deriving DecidableEq, Repr

/-- Local I/O error kinds relevant to the embedded code: `ErrorKind::NotFound`
versus any other `std::io::Error` (abstracted by a numeric code). -/
inductive IOErr where
| notFound
| other (code : Nat)
deriving DecidableEq, Repr

/-- Hexadecimal value of a lower-case hex character, `none` otherwise. -/
def hexVal (c : Char) : Option Nat :=
  if ('0' ≤ c ∧ c ≤ '9') then some (c.toNat - 48)
  else if ('a' ≤ c ∧ c ≤ 'f') then some (c.toNat - 87)
  else none

/-- Numeric value of a list of decimal digit characters. -/
def digitsToNat (l : List Char) : Nat :=
  l.foldl (fun a c => a * 10 + (c.toNat - 48)) 0

/-- Parse a canonical (no leading zero, nonempty) decimal number from the
front of a character list, returning the value and the rest. -/
def parseNatPart (l : List Char) : Option (Nat × List Char) :=
  let ds := l.takeWhile (·.isDigit)
  let rest := l.dropWhile (·.isDigit)
  match ds with
  | [] => none
  | c :: tl => if c = '0' ∧ tl ≠ [] then none else some (digitsToNat ds, rest)

/-- Consume one expected character. -/
def expectChar (c : Char) : List Char → Option (List Char)
| x :: rest => if x = c then some rest else none
| [] => none

/-- Consume an expected literal character sequence. -/
def expectList : List Char → List Char → Option (List Char)
| [], rest => some rest
| p :: ps, x :: rest => if x = p then expectList ps rest else none
| _ :: _, [] => none

/-- Parse exactly eight lower-case hex characters, ending the input, into the
four commit-prefix bytes. -/
def parseCommitEnd (l : List Char) : Option (List Nat) :=
  match l with
  | [a₁, a₂, b₁, b₂, c₁, c₂, d₁, d₂] => do
    let x₁ ← hexVal a₁
    let x₂ ← hexVal a₂
    let x₃ ← hexVal b₁
    let x₄ ← hexVal b₂
    let x₅ ← hexVal c₁
    let x₆ ← hexVal c₂
    let x₇ ← hexVal d₁
    let x₈ ← hexVal d₂
    pure [16 * x₁ + x₂, 16 * x₃ + x₄, 16 * x₅ + x₆, 16 * x₇ + x₈]
  | _ => none

/-- Modelled from the spec: `version.rs` is not among the available sources.
A `Version` is either a *Release* — a semantic-version triple plus a 4-byte
commit prefix — or a *Nightly* — a triple plus an ISO date plus a 4-byte
commit prefix (spec section 3). -/
inductive Version where
| release (major minor patch : Nat) (commit : List Nat)
| nightly (major minor patch : Nat) (year month day : Nat) (commit : List Nat)
deriving DecidableEq, Repr

/-- Parser body after the leading `v`: `MAJOR.MINOR.PATCH` then either
`+commit.HEX8` (release) or `-nightly.YYYY.M.D+commit.HEX8` (nightly). -/
def Version.fromChars (cs : List Char) : Option Version := do
  let (mjr, r₁) ← parseNatPart cs
  let r₂ ← expectChar '.' r₁
  let (mnr, r₃) ← parseNatPart r₂
  let r₄ ← expectChar '.' r₃
  let (ptc, r₅) ← parseNatPart r₄
  match r₅ with
  | '+' :: r₆ => do
    let r₇ ← expectList (("commit.").toList) r₆
    let cm ← parseCommitEnd r₇
    pure (.release mjr mnr ptc cm)
  | '-' :: r₆ => do
    let r₇ ← expectList (("nightly.").toList) r₆
    let (y, r₈) ← parseNatPart r₇
    let r₉ ← expectChar '.' r₈
    let (mo, r₁₀) ← parseNatPart r₉
    let r₁₁ ← expectChar '.' r₁₀
    let (d, r₁₂) ← parseNatPart r₁₁
    let r₁₃ ← expectChar '+' r₁₂
    let r₁₄ ← expectList (("commit.").toList) r₁₃
    let cm ← parseCommitEnd r₁₄
    pure (.nightly mjr mnr ptc y mo d cm)
  | _ => none

/-- Modelled from the spec: the canonical `Version` parser
(`Version::from_str` in the missing `version.rs`). It accepts exactly the
canonical forms `v<MAJOR>.<MINOR>.<PATCH>+commit.<HEX8>` (release) and the
analogous nightly form with an ISO date, and rejects everything else,
including any trailing data (spec sections 3, 4.1, 6). -/
def Version.from_str (s : String) : Option Version :=
  match s.toList with
  | 'v' :: cs => Version.fromChars cs
  | _ => none

/-- Lower-case hex digit for a value below 16. -/
def hexDigit (n : Nat) : Char :=
  if n < 10 then Char.ofNat (48 + n) else Char.ofNat (87 + n)

/-- Two lower-case hex characters of one byte. -/
def byteToHex (n : Nat) : List Char := [hexDigit (n / 16), hexDigit (n % 16)]

/-- Modelled from the spec: canonical formatting (`Display` in the missing
`version.rs`): `v<MAJOR>.<MINOR>.<PATCH>+commit.<HEX8>` and the analogous
nightly form, deterministic and lower-case (spec section 4.1). -/
def Version.to_string : Version → String
| .release a b c cm =>
    "v" ++ toString a ++ "." ++ toString b ++ "." ++ toString c
      ++ "+commit." ++ String.mk ((cm.map byteToHex).flatten)
| .nightly a b c y mo d cm =>
    "v" ++ toString a ++ "." ++ toString b ++ "." ++ toString c
      ++ "-nightly." ++ toString y ++ "." ++ toString mo ++ "." ++ toString d
      ++ "+commit." ++ String.mk ((cm.map byteToHex).flatten)

/-! ## Fetch errors (`fetcher.rs`, enum `FetchError`) -/

/-- The error enum of `fetcher.rs`. `Fetch` wraps an `anyhow` cause,
abstracted by its message; `File` wraps a `std::io::Error`; `Schedule` wraps a
tokio join error (never produced by the embedded code paths, which model
joins of non-panicking closures as always succeeding). -/
inductive FetchError where
| NotFound (v : Version)
| Fetch (msg : String)
| HashMismatch (m : Mismatch H256)
| File (e : IOErr)
| Schedule
deriving DecidableEq, Repr

/-! ## Filesystem model

`write_executable` and `load_from_dir` interact with the local filesystem.
The filesystem is modelled as a record of existing directories and files
(content plus POSIX mode), keyed by paths represented as component lists.
`removeFault` injects the environment's freedom to fail `remove_file` with an
arbitrary I/O error (e.g. permissions), which the source code handles
explicitly. -/

/-- A path, as its list of components (`PathBuf`). -/
abbrev FPath := List String

/-- A regular file: content bytes plus POSIX mode. -/
structure FSFile where
  content : List Nat
  mode : Nat
deriving DecidableEq, Repr

/-- Filesystem state. -/
structure FS where
  dirs : List FPath
  files : List (FPath × FSFile)
  removeFault : Option IOErr
deriving DecidableEq, Repr

/-- Look up a file by path. -/
def FS.lookupFile (fs : FS) (p : FPath) : Option FSFile :=
  (fs.files.find? (fun e => decide (e.1 = p))).map (·.2)

/-- Store a file at a path, replacing any previous one. -/
def FS.setFile (fs : FS) (p : FPath) (f : FSFile) : FS :=
  { fs with files := (p, f) :: fs.files.filter (fun e => ! decide (e.1 = p)) }

/-- Delete a file (unconditionally). -/
def FS.deleteFile (fs : FS) (p : FPath) : FS :=
  { fs with files := fs.files.filter (fun e => ! decide (e.1 = p)) }

/-- `std::fs::create_dir_all`: records the directory; cannot fail in the
model. -/
def FS.create_dir_all (fs : FS) (p : FPath) : Except IOErr FS :=
  .ok { fs with dirs := p :: fs.dirs }

/-- `std::fs::remove_file`: fails with the injected fault when one is set,
with `NotFound` when the file does not exist, and otherwise removes it. -/
def FS.remove_file (fs : FS) (p : FPath) : Except IOErr FS :=
  match fs.removeFault with
  | some e => .error e
  | none =>
    if (fs.lookupFile p).isSome then .ok (fs.deleteFile p) else .error .notFound

/-- `create_executable` (`fetcher.rs`): `OpenOptions::new().create(true)
.write(true).truncate(true).mode(0o777).open(path)`. Creating a fresh file
applies mode `0o777`; opening an existing file truncates it but keeps its
mode (POSIX `open` semantics: the mode argument is used only at creation). -/
def create_executable (fs : FS) (p : FPath) : Except IOErr FS :=
  match fs.lookupFile p with
  | some f => .ok (fs.setFile p { content := [], mode := f.mode })
  | none => .ok (fs.setFile p { content := [], mode := 0o777 })

/-- `std::io::copy(&mut data.as_ref(), &mut file)`: appends the bytes at the
file cursor (the file was just created/truncated by `create_executable`). -/
def FS.io_copy (fs : FS) (p : FPath) (data : List Nat) : Except IOErr FS :=
  match fs.lookupFile p with
  | some f => .ok (fs.setFile p { content := f.content ++ data, mode := f.mode })
  | none => .error (.other 0)

/-! ## `check_hashsum` and `write_executable` (`fetcher.rs`)

SHA-256 itself is the external `sha2` crate; the embedding is parametric in
the digest function `sha256digest` (the composition of `Sha256::digest` with
`H256::from_slice`, which is total because the digest is always 32 bytes). -/

/-- `check_hashsum(bytes, expected)` (`fetcher.rs`): digest the bytes and
compare with the expected hash; `Err(Mismatch::new(expected, found))` on
disagreement. -/
def check_hashsum (sha256digest : List Nat → H256) (bytes : List Nat)
    (expected : H256) : Except (Mismatch H256) Unit :=
  let found := sha256digest bytes
  if expected ≠ found then .error ⟨expected, found⟩ else .ok ()

/-- The blocking save closure inside `write_executable`: `create_dir_all`,
`remove_file` with `NotFound` tolerated via `or_else`, `create_executable`,
`io::copy`; each `?` is an explicit error-propagating match. -/
def saveClosure (data : List Nat) (folder file : FPath) (fs : FS) :
    Except IOErr FS :=
  match fs.create_dir_all folder with
  | .error e => .error e
  | .ok fs₁ =>
    match (match fs₁.remove_file file with
           | .ok f => Except.ok f
           | .error e =>
             if e = IOErr.notFound then Except.ok fs₁ else Except.error e) with
    | .error e => .error e
    | .ok fs₂ =>
      match create_executable fs₂ file with
      | .error e => .error e
      | .ok fs₃ => fs₃.io_copy file data

/-- `write_executable(data, sha, path, ver)` (`fetcher.rs`): runs the save
closure and `check_hashsum` concurrently (`futures::join!` of two
`spawn_blocking` tasks, whose joins are modelled as always succeeding), then
propagates the check result first (`check_result??; save_result??`) and
returns `path/<ver>/solc`. -/
def write_executable (sha256digest : List Nat → H256) (data : List Nat)
    (sha : H256) (path : FPath) (ver : Version) (fs : FS) :
    Except FetchError (FPath × FS) :=
  let folder := path ++ [ver.to_string]
  let file := folder ++ ["solc"]
  let save_result := saveClosure data folder file fs
  let check_result := check_hashsum sha256digest data sha
  match check_result with
  | .error m => .error (.HashMismatch m)
  | .ok _ =>
    match save_result with
    | .error e => .error (.File e)
    | .ok fs₄ => .ok (file, fs₄)

/-! ## `DownloadCache` (`download_cache.rs`), sequential semantics

The cache is `Mutex<HashMap<Version, Arc<RwLock<Option<PathBuf>>>>>`: a map
from versions to entries, an entry being a slot that is either empty (`none`)
or populated with a path. For claims about temporally separated `get` calls
the interleaving is irrelevant, so each call runs to completion: the state is
an association list `Version ↦ slot`, the fetcher is a function
`Version → Except FetchError FPath`, and `get`/`fetch` additionally report
whether `fetcher.fetch` was invoked (instrumentation for the claims). -/

/-- Cache state: present entries with their slot contents. -/
abbrev Cache := List (Version × Option FPath)

/-- Entry of a version in the map: `none` = no entry, `some slot` = entry
whose slot is `slot`. -/
def Cache.lookup (c : Cache) (v : Version) : Option (Option FPath) :=
  (c.find? (fun e => decide (e.1 = v))).map (·.2)

/-- Install or overwrite the entry of a version. -/
def Cache.set (c : Cache) (v : Version) (s : Option FPath) : Cache :=
  (v, s) :: c.filter (fun e => ! decide (e.1 = v))

/-- `DownloadCache::try_get`: look the entry up and read its slot; `none`
when the entry is absent or its slot is empty. -/
def DownloadCache.try_get (c : Cache) (v : Version) : Option FPath :=
  match Cache.lookup c v with
  | some (some p) => some p
  | _ => none

/-- `DownloadCache::fetch` (the slow path): `cache.entry(ver).or_default()`,
then re-check the slot under the entry's exclusive lock, and only if it is
still empty call `fetcher.fetch`; on success populate the slot, on failure
leave it empty. The boolean reports whether the fetcher was invoked. -/
def DownloadCache.fetch (c : Cache) (F : Version → Except FetchError FPath)
    (v : Version) : Except FetchError FPath × Cache × Bool :=
  let c₁ := match Cache.lookup c v with
    | some _ => c
    | none => Cache.set c v none
  match Cache.lookup c₁ v with
  | some (some p) => (.ok p, c₁, false)
  | _ =>
    match F v with
    | .ok file => (.ok file, Cache.set c₁ v (some file), true)
    | .error e => (.error e, c₁, true)

/-- `DownloadCache::get`: fast path via `try_get`, slow path via `fetch`. -/
def DownloadCache.get (c : Cache) (F : Version → Except FetchError FPath)
    (v : Version) : Except FetchError FPath × Cache × Bool :=
  match DownloadCache.try_get c v with
  | some file => (.ok file, c, false)
  | none => DownloadCache.fetch c F v

/-- Run a sequence of `get` operations (arbitrary fetchers and versions),
keeping only the resulting cache. -/
def DownloadCache.runGets (c : Cache)
    (ops : List ((Version → Except FetchError FPath) × Version)) : Cache :=
  ops.foldl (fun c op => (DownloadCache.get c op.1 op.2).2.1) c

/-! ## `DownloadCache::load_from_dir` and `find_versions_in_dir`
(`download_cache.rs`)

The directory listing (`std::fs::read_dir`) and per-file reads
(`std::fs::read`) are oracles. A directory entry is `Except IOErr FPath`
(an `entry` may individually be an `Err`, which `entry.ok()` drops); its file
name is the last path component. The fetcher side used by `load_from_dir` is
its `folder()` and `get_hash()` methods (`FetcherM`). The `HashMap` built by
`find_versions_in_dir` keeps the last entry per version; the model fixes one
iteration order (the list order), standing for the `HashMap`'s unspecified
one. -/

/-- The fetcher interface consumed by `load_from_dir`: its folder root and
manifest hash lookup. -/
structure FetcherM where
  folder : FPath
  get_hash : Version → Option H256

/-- The `filter_map` stage of `find_versions_in_dir`: drop failed directory
entries, parse the file name as a `Version`, pair it with `<path>/solc`. -/
def rawVersionsOf (dir : List (Except IOErr FPath)) : List (Version × FPath) :=
  dir.filterMap (fun e =>
    match e with
    | .error _ => none
    | .ok p =>
      match p.getLast? with
      | some n => (Version.from_str n).map (fun v => (v, p ++ ["solc"]))
      | none => none)

/-- The `collect::<HashMap<_, _>>()` stage: one entry per version, later
entries overwriting earlier ones. -/
def collectHM : List (Version × FPath) → List (Version × FPath)
| [] => []
| (v, p) :: rest =>
  let r := collectHM rest
  if r.any (fun e => decide (e.1 = v)) then r else (v, p) :: r

/-- `DownloadCache::find_versions_in_dir`. -/
def DownloadCache.find_versions_in_dir (dir : List (Except IOErr FPath)) :
    List (Version × FPath) :=
  collectHM (rawVersionsOf dir)

/-- One iteration of the `load_from_dir` loop body for the entry
`(version, solc_path)`: no manifest hash → log and skip; read the file with
`?` (an I/O error aborts); matching hash → install the path (overwriting the
slot); mismatch → log and skip. -/
def lfdStep (digest : List Nat → H256) (fetcher : FetcherM)
    (readF : FPath → Except IOErr (List Nat)) (c : Cache)
    (vp : Version × FPath) : Except IOErr Cache :=
  match fetcher.get_hash vp.1 with
  | some expected =>
    match readF vp.2 with
    | .error e => .error e
    | .ok solc_bytes =>
      match check_hashsum digest solc_bytes expected with
      | .ok _ => .ok (Cache.set c vp.1 (some vp.2))
      | .error _ => .ok c
  | none => .ok c

/-- `DownloadCache::load_from_dir`: read the fetcher's folder (`?` aborts),
collect parseable version directories, and run the loop. -/
def DownloadCache.load_from_dir (digest : List Nat → H256) (fetcher : FetcherM)
    (read_dir : FPath → Except IOErr (List (Except IOErr FPath)))
    (readF : FPath → Except IOErr (List Nat)) (c : Cache) :
    Except IOErr Cache :=
  match read_dir fetcher.folder with
  | .error e => .error e
  | .ok entries =>
    (DownloadCache.find_versions_in_dir entries).foldlM
      (lfdStep digest fetcher readF) c

/-- An entry `(v, p)` would be installed by the reconciliation: the manifest
knows a hash for `v` and the file at `p` reads successfully with exactly that
digest. -/
def goodInstall (digest : List Nat → H256) (fetcher : FetcherM)
    (readF : FPath → Except IOErr (List Nat)) (v : Version) (p : FPath) :
    Prop :=
  ∃ hh, fetcher.get_hash v = some hh
    ∧ ∃ bytes, readF p = .ok bytes ∧ digest bytes = hh

/-! ## `RefreshableVersions::update_versions` (`refreshable_versions.rs`)

The container state is the stored value `T`; the model returns the new
stored value together with the list of lock acquisitions the call performs,
in order: the optimistic read-lock check always happens, the write lock only
when the fetched value differs. -/

/-- A lock acquisition performed by `update_versions`. -/
inductive LockEv where
| readLock
| writeLock
deriving DecidableEq, Repr

/-- `RefreshableVersions::update_versions(new)`: compare under a read lock
(`need_to_update`), and only when the values differ take the write lock and
overwrite the stored value. Returns the resulting stored value and the lock
events. -/
def RefreshableVersions.update_versions {T : Type} [DecidableEq T]
    (stored new : T) : T × List LockEv :=
  let need_to_update := new ≠ stored
  if need_to_update then (new, [.readLock, .writeLock])
  else (stored, [.readLock])

/-! ## `S3Fetcher` (`s3_fetcher.rs`)

The S3 bucket is an oracle with the two operations the embedded code uses:
`list` (for `Versions::fetch_versions`) and `get_object` (for
`S3Fetcher::fetch_file`; the tokio `spawn`/join of `spawn_fetch_s3` is
modelled as always joining, and the `anyhow` error mapping is already folded
into the oracle's `FetchError`). `CommonPrefixM.pfx` models the `prefix`
field of a common prefix (renamed: `prefix` is a Lean keyword). `FetchOutcome`
distinguishes normal returns, `Err` returns, and panics. -/

/-- One common prefix of an S3 list response. -/
structure CommonPrefixM where
  pfx : String
deriving DecidableEq, Repr

/-- One page of an S3 list response: its optional common prefixes. -/
structure ListBucketResultM where
  common_prefixes : Option (List CommonPrefixM)
deriving DecidableEq, Repr

/-- The bucket oracle. -/
structure BucketM where
  list : String → Option String → Except String (List ListBucketResultM)
  get_object : FPath → Except FetchError (List Nat × Nat)

/-- `ListError` (`s3_fetcher.rs`): listing failure. -/
inductive ListError where
| Fetch (e : String)
deriving DecidableEq, Repr

/-- `Versions::fetch_versions`: list the bucket with empty prefix and
delimiter `"/"`, take all common prefixes, parse each as a canonical
`Version` and silently drop the unparseable ones (the `HashSet` collection
is modelled as the resulting list, read up to membership). -/
def Versions.fetch_versions (b : BucketM) : Except ListError (List Version) :=
  match b.list "" (some "/") with
  | .error e => .error (.Fetch e)
  | .ok folders =>
    .ok (((folders.filterMap (fun x => x.common_prefixes)).flatten).filterMap
      (fun x => Version.from_str x.pfx))

/-- Outcome of a fallible computation that may also panic. -/
inductive FetchOutcome (α : Type) where
| ok (val : α)
| err (e : FetchError)
| panic
deriving DecidableEq, Repr

/-- `H256::from_slice`: converts a byte slice to an `H256`; panics (modelled
as `none`) unless the slice is exactly 32 bytes long. -/
def H256.from_slice (l : List Nat) : Option H256 :=
  if l.length = 32 then some l else none

/-- `S3Fetcher::fetch_file`: `NotFound` if the version snapshot does not
contain the version; two object GETs (`<ver>/solc`, `<ver>/sha256.hash`);
the hash result is examined first (`hash??`, then its status), then the data
result; finally `H256::from_slice(&hash)`, which panics when the body is not
32 bytes. -/
def S3Fetcher.fetch_file (b : BucketM) (versions : List Version)
    (ver : Version) : FetchOutcome (List Nat × H256) :=
  if ver ∈ versions then
    match b.get_object [ver.to_string, "sha256.hash"] with
    | .error e => .err e
    | .ok (hashBody, hashStatus) =>
      if hashStatus ≠ 200 then
        .err (.Fetch ("s3 returned non 200 status code while fetching hash data: "
          ++ toString hashStatus))
      else
        match b.get_object [ver.to_string, "solc"] with
        | .error e => .err e
        | .ok (dataBody, dataStatus) =>
          if dataStatus ≠ 200 then
            .err (.Fetch ("s3 returned non 200 status code while fetching executable file: "
              ++ toString dataStatus))
          else
            match H256.from_slice hashBody with
            | some h => .ok (dataBody, h)
            | none => .panic
  else .err (.NotFound ver)

/-- `<S3Fetcher as Fetcher>::fetch`: `fetch_file` then
`save_executable` (`write_executable`); a panic in `fetch_file` propagates. -/
def S3Fetcher.fetch (b : BucketM) (versions : List Version) (folder : FPath)
    (digest : List Nat → H256) (fs : FS) (ver : Version) :
    FetchOutcome (FPath × FS) :=
  match S3Fetcher.fetch_file b versions ver with
  | .panic => .panic
  | .err e => .err e
  | .ok (data, hash) =>
    match write_executable digest data hash folder ver fs with
    | .ok r => .ok r
    | .error e => .err e

/-! ## Single-flight protocol of `DownloadCache::get` (`download_cache.rs`),
concurrent semantics

`n` tasks run `get` concurrently; task `i` requests version `vs i`; the
fetcher always succeeds, deterministically returning `f v` (the claim's
premise that all invocations succeed). The state is the slot and writer-lock
of every entry plus each task's program counter and a per-version count of
`fetcher.fetch` invocations. One scheduler step runs one atomic region of
one task:

* `start`: the fast path (`try_get`): observe the slot; populated → return,
  empty → go for the entry's write lock;
* `wantLock`: acquire the write lock when free (blocked otherwise) and
  re-check the slot under it: populated → release and return; still empty →
  begin `fetcher.fetch` (this bumps the count) while holding the lock.
  Acquisition and re-check form one atomic step: the slot can only change
  under the write lock, so no other task can interleave between them;
* `fetching`: the fetch completes: populate the slot, release the lock,
  return.

A schedule (list of task indices) resolves all nondeterminism; steps of
blocked or finished tasks are no-ops. -/

/-- Program counter of one `get` task. -/
inductive SFPC (P : Type) where
| start
| wantLock
| fetching
| done (p : P)
deriving DecidableEq, Repr

/-- Whether a task has returned. -/
def SFPC.isDone {P : Type} : SFPC P → Bool
| .done _ => true
| _ => false

/-- Global state of the concurrent cache protocol. -/
structure SFState (n : Nat) (V P : Type) where
  pc : Fin n → SFPC P
  slot : V → Option P
  lock : V → Option (Fin n)
  count : V → Nat

/-- Initial state: empty cache, free locks, zero fetch counts. -/
def sfInit (n : Nat) (V P : Type) : SFState n V P :=
  ⟨fun _ => .start, fun _ => none, fun _ => none, fun _ => 0⟩

/-- One atomic step of task `i`. -/
def sfStep {n : Nat} {V P : Type} [DecidableEq V] (vs : Fin n → V) (f : V → P)
    (s : SFState n V P) (i : Fin n) : SFState n V P :=
  match s.pc i with
  | .start =>
    match s.slot (vs i) with
    | some p => { s with pc := fun j => if j = i then .done p else s.pc j }
    | none => { s with pc := fun j => if j = i then .wantLock else s.pc j }
  | .wantLock =>
    match s.lock (vs i) with
    | some _ => s
    | none =>
      match s.slot (vs i) with
      | some p => { s with pc := fun j => if j = i then .done p else s.pc j }
      | none =>
        { s with
          pc := fun j => if j = i then .fetching else s.pc j,
          lock := fun v => if v = vs i then some i else s.lock v,
          count := fun v => if v = vs i then s.count v + 1 else s.count v }
  | .fetching =>
    { s with
      pc := fun j => if j = i then .done (f (vs i)) else s.pc j,
      slot := fun v => if v = vs i then some (f (vs i)) else s.slot v,
      lock := fun v => if v = vs i then none else s.lock v }
  | .done _ => s

/-- Run a schedule from the initial state. -/
def sfRun {n : Nat} {V P : Type} [DecidableEq V] (vs : Fin n → V) (f : V → P)
    (sched : List (Fin n)) : SFState n V P :=
  sched.foldl (sfStep vs f) (sfInit n V P)

/-- Protocol invariant: the lock of `v` is held only by a fetching task for
`v`; a fetching task holds its lock and its slot is still empty; a finished
task's slot is populated; slots are populated only for requested versions;
and the fetch count of every version is exactly (slot populated) + (a fetch
for it is in flight). -/
def sfInv {n : Nat} {V P : Type} [DecidableEq V] [DecidableEq P]
    (vs : Fin n → V) (s : SFState n V P) : Prop :=
  (∀ (v : V) (j : Fin n), s.lock v = some j → vs j = v ∧ s.pc j = .fetching)
  ∧ (∀ j : Fin n, s.pc j = .fetching →
      s.lock (vs j) = some j ∧ s.slot (vs j) = none)
  ∧ (∀ (j : Fin n) (p : P), s.pc j = .done p → (s.slot (vs j)).isSome = true)
  ∧ (∀ v : V, (s.slot v).isSome = true → ∃ j, vs j = v)
  ∧ (∀ v : V, s.count v = (if (s.slot v).isSome = true then 1 else 0)
      + (if ∃ j, vs j = v ∧ s.pc j = .fetching then 1 else 0))

/-! ## Lemmas about the filesystem model -/

theorem lookupFile_setFile_self (fs : FS) (p : FPath) (f : FSFile) :
    (fs.setFile p f).lookupFile p = some f := by
  simp [FS.lookupFile, FS.setFile, List.find?_cons]

theorem lookupFile_deleteFile_self (fs : FS) (p : FPath) :
    (fs.deleteFile p).lookupFile p = none := by
  have h : (fs.files.filter (fun e => ! decide (e.1 = p))).find?
      (fun e => decide (e.1 = p)) = none := by
    rw [List.find?_eq_none]
    intro x hx
    have hmem := List.mem_filter.mp hx
    simpa using hmem.2
  simp [FS.lookupFile, FS.deleteFile, h]

/-- Successful save: with no injected removal fault, the blocking closure of
`write_executable` succeeds and leaves the target directory recorded and the
target file with exactly the given content and mode `0o777`, whether or not a
previous `solc` file existed. -/
theorem saveClosure_ok (data : List Nat) (folder file : FPath) (fs : FS)
    (hf : fs.removeFault = none) :
    ∃ fs', saveClosure data folder file fs = .ok fs'
      ∧ folder ∈ fs'.dirs ∧ fs'.lookupFile file = some ⟨data, 0o777⟩ := by
  obtain ⟨ds, flz, rf⟩ := fs
  replace hf : rf = none := hf
  subst hf
  cases hlk : FS.lookupFile ⟨ds, flz, none⟩ file with
  | some f =>
    refine ⟨((FS.deleteFile ⟨folder :: ds, flz, none⟩ file).setFile
        file ⟨[], 0o777⟩).setFile file ⟨[] ++ data, 0o777⟩, ?_, ?_, ?_⟩
    · have hlk' : FS.lookupFile ⟨folder :: ds, flz, none⟩ file = some f := hlk
      have hdel := lookupFile_deleteFile_self ⟨folder :: ds, flz, none⟩ file
      have hset := lookupFile_setFile_self
        (FS.deleteFile ⟨folder :: ds, flz, none⟩ file) file ⟨[], 0o777⟩
      simp [saveClosure, FS.create_dir_all, FS.remove_file, hlk', hdel,
        hset, create_executable, FS.io_copy]
    · simp [FS.setFile, FS.deleteFile]
    · simpa using lookupFile_setFile_self _ file ⟨[] ++ data, 0o777⟩
  | none =>
    refine ⟨((FS.setFile ⟨folder :: ds, flz, none⟩
        file ⟨[], 0o777⟩)).setFile file ⟨[] ++ data, 0o777⟩, ?_, ?_, ?_⟩
    · have hlk' : FS.lookupFile ⟨folder :: ds, flz, none⟩ file = none := hlk
      have hset := lookupFile_setFile_self
        (⟨folder :: ds, flz, none⟩ : FS) file ⟨[], 0o777⟩
      simp [saveClosure, FS.create_dir_all, FS.remove_file, hlk', hset,
        create_executable, FS.io_copy]
    · simp [FS.setFile]
    · simpa using lookupFile_setFile_self _ file ⟨[] ++ data, 0o777⟩

/-- Faulty removal: an injected `remove_file` error other than `NotFound`
aborts the blocking closure with that error. -/
theorem saveClosure_fault (data : List Nat) (folder file : FPath) (fs : FS)
    (e : IOErr) (hf : fs.removeFault = some e) (hne : e ≠ .notFound) :
    saveClosure data folder file fs = .error e := by
  simp [saveClosure, FS.create_dir_all, FS.remove_file, hf, hne]

/-- C2. For all bytes, 32-byte digest `h`, root path and version `v` (and any
digest function, since SHA-256 is the external `sha2` crate): if the digest of
the bytes differs from `h`, `write_executable` fails with a `HashMismatch`
error carrying the expected digest `h` and the actual digest of the bytes; if
the digest equals `h` and the file operations succeed (no injected removal
fault), it returns the path `root/<format v>/solc` and the file at that path
has content exactly the given bytes. -/
theorem write_executable_integrity (sha256digest : List Nat → H256)
    (bytes : List Nat) (h : H256) (root : FPath) (v : Version) (fs : FS)
    (hlen : h.length = 32) (hfault : fs.removeFault = none) :
    (sha256digest bytes ≠ h →
      write_executable sha256digest bytes h root v fs
        = .error (.HashMismatch ⟨h, sha256digest bytes⟩)) ∧
    (sha256digest bytes = h →
      ∃ fs', write_executable sha256digest bytes h root v fs
          = .ok (root ++ [v.to_string, "solc"], fs')
        ∧ fs'.lookupFile (root ++ [v.to_string, "solc"])
            = some ⟨bytes, 0o777⟩) := by
  constructor
  · intro hne
    have hcheck : check_hashsum sha256digest bytes h
        = .error ⟨h, sha256digest bytes⟩ := by
      simp [check_hashsum, Ne.symm hne]
    simp [write_executable, hcheck]
  · intro heq
    have hcheck : check_hashsum sha256digest bytes h = .ok () := by
      simp [check_hashsum, heq]
    obtain ⟨fs', hsave, _, hfile⟩ := saveClosure_ok bytes
      (root ++ [v.to_string]) ((root ++ [v.to_string]) ++ ["solc"]) fs hfault
    have hsave' : saveClosure bytes (root ++ [v.to_string])
        (root ++ [v.to_string, "solc"]) fs = .ok fs' := by
      simpa [List.append_assoc] using hsave
    refine ⟨fs', ?_, ?_⟩
    · simp [write_executable, hcheck, hsave']
    · simpa [List.append_assoc] using hfile

/-- C2 witness: a concrete successful run. -/
theorem write_executable_integrity_witness :
    ∃ fs', write_executable (fun _ => List.replicate 32 0) [7]
        (List.replicate 32 0) [] (.release 1 0 0 [0, 0, 0, 0]) ⟨[], [], none⟩
      = .ok ([(Version.release 1 0 0 [0, 0, 0, 0]).to_string, "solc"], fs')
      ∧ fs'.lookupFile [(Version.release 1 0 0 [0, 0, 0, 0]).to_string, "solc"]
        = some ⟨[7], 0o777⟩ :=
  (write_executable_integrity (fun _ => List.replicate 32 0) [7]
    (List.replicate 32 0) [] (.release 1 0 0 [0, 0, 0, 0]) ⟨[], [], none⟩
    (by decide) rfl).2 rfl

/-- C9. Materializing a binary for version `v` under `root` with a correct
hash: the save path records the directory `root/<format v>/`, removes any
pre-existing `solc` there with a `NotFound` removal error treated as success
(the first conjunct covers every fault-free filesystem, whether or not `solc`
pre-existed), creates `solc` with POSIX mode `0o777` and writes all bytes
into it; and any removal error other than `NotFound` fails the whole
operation with that error. -/
theorem write_executable_materialization (sha256digest : List Nat → H256)
    (bytes : List Nat) (h : H256) (root : FPath) (v : Version) (fs : FS)
    (hdig : sha256digest bytes = h) :
    (fs.removeFault = none →
      ∃ fs', write_executable sha256digest bytes h root v fs
          = .ok (root ++ [v.to_string, "solc"], fs')
        ∧ (root ++ [v.to_string]) ∈ fs'.dirs
        ∧ fs'.lookupFile (root ++ [v.to_string, "solc"])
            = some ⟨bytes, 0o777⟩) ∧
    (∀ e : IOErr, fs.removeFault = some e → e ≠ .notFound →
      write_executable sha256digest bytes h root v fs
        = .error (.File e)) := by
  have hcheck : check_hashsum sha256digest bytes h = .ok () := by
    simp [check_hashsum, hdig]
  constructor
  · intro hfault
    obtain ⟨fs', hsave, hdir, hfile⟩ := saveClosure_ok bytes
      (root ++ [v.to_string]) ((root ++ [v.to_string]) ++ ["solc"]) fs hfault
    have hsave' : saveClosure bytes (root ++ [v.to_string])
        (root ++ [v.to_string, "solc"]) fs = .ok fs' := by
      simpa [List.append_assoc] using hsave
    refine ⟨fs', ?_, hdir, ?_⟩
    · simp [write_executable, hcheck, hsave']
    · simpa [List.append_assoc] using hfile
  · intro e hfault hne
    have hsave := saveClosure_fault bytes (root ++ [v.to_string])
      ((root ++ [v.to_string]) ++ ["solc"]) fs e hfault hne
    have hsave' : saveClosure bytes (root ++ [v.to_string])
        (root ++ [v.to_string, "solc"]) fs = .error e := by
      simpa [List.append_assoc] using hsave
    simp [write_executable, hcheck, hsave']

/-- C9 witness: one fault-free run and one run with an injected
non-`NotFound` removal error. -/
theorem write_executable_materialization_witness :
    (∃ fs', write_executable (fun _ => [1]) [9] [1] []
        (.release 2 0 0 [0, 0, 0, 0]) ⟨[], [], none⟩
      = .ok ([(Version.release 2 0 0 [0, 0, 0, 0]).to_string, "solc"], fs')
      ∧ [(Version.release 2 0 0 [0, 0, 0, 0]).to_string] ∈ fs'.dirs
      ∧ fs'.lookupFile [(Version.release 2 0 0 [0, 0, 0, 0]).to_string, "solc"]
        = some ⟨[9], 0o777⟩) ∧
    write_executable (fun _ => [1]) [9] [1] []
        (.release 2 0 0 [0, 0, 0, 0]) ⟨[], [], some (.other 3)⟩
      = .error (.File (.other 3)) :=
  ⟨(write_executable_materialization (fun _ => [1]) [9] [1] []
      (.release 2 0 0 [0, 0, 0, 0]) ⟨[], [], none⟩ rfl).1 rfl,
   (write_executable_materialization (fun _ => [1]) [9] [1] []
      (.release 2 0 0 [0, 0, 0, 0]) ⟨[], [], some (.other 3)⟩ rfl).2
      (.other 3) rfl (by decide)⟩

theorem Cache.lookup_set_self (c : Cache) (v : Version) (s : Option FPath) :
    Cache.lookup (Cache.set c v s) v = some s := by
  simp [Cache.lookup, Cache.set, List.find?_cons]

theorem Cache.lookup_set_ne (c : Cache) (v w : Version) (s : Option FPath)
    (h : w ≠ v) : Cache.lookup (Cache.set c v s) w = Cache.lookup c w := by
  simp only [Cache.lookup, Cache.set]
  have hfind : ∀ l : Cache, (l.filter (fun e => ! decide (e.1 = v))).find?
      (fun e => decide (e.1 = w)) = l.find? (fun e => decide (e.1 = w)) := by
    intro l
    induction l with
    | nil => rfl
    | cons e t ih =>
      by_cases he : e.1 = v
      · have hew : ¬ (e.1 = w) := by rw [he]; exact fun hh => h hh.symm
        have hvw : ¬ (v = w) := fun hh => hew (he.trans hh)
        simp [List.filter_cons, he, List.find?_cons, hew, hvw, ih]
      · by_cases hew : e.1 = w
        · simp [List.filter_cons, he, List.find?_cons, hew, h]
        · simp [List.filter_cons, he, List.find?_cons, hew, h, ih]
  rw [List.find?_cons]
  have : (decide ((v, s).1 = w)) = false := by simp; exact fun hh => h hh.symm
  rw [this, hfind]

/-- A populated slot is never overwritten by `get`: any later `get` call, for
any fetcher and any version, preserves it. -/
theorem DownloadCache.get_preserves_populated (c : Cache) (v : Version)
    (p : FPath) (F : Version → Except FetchError FPath) (w : Version)
    (h : Cache.lookup c v = some (some p)) :
    Cache.lookup (DownloadCache.get c F w).2.1 v = some (some p) := by
  by_cases hvw : v = w
  · subst hvw
    simp [DownloadCache.get, DownloadCache.try_get, h]
  · unfold DownloadCache.get DownloadCache.fetch
    cases htry : DownloadCache.try_get c w with
    | some file => simpa using h
    | none =>
      cases hlk : Cache.lookup c w with
      | some s =>
        cases s with
        | some q => simp [DownloadCache.try_get, hlk] at htry
        | none =>
          simp only [hlk]
          cases hF : F w with
          | ok file =>
            simp [hlk, hF, Cache.lookup_set_ne _ _ _ _ hvw, h]
          | error e => simp [hlk, hF, h]
      | none =>
        have hne : w ≠ v := fun hh => hvw hh.symm
        have h₁ : Cache.lookup (Cache.set c w none) w = some none :=
          Cache.lookup_set_self c w none
        cases hF : F w with
        | ok file =>
          simp [hlk, h₁, hF, Cache.lookup_set_ne, hvw, h,
            Cache.lookup_set_ne _ _ _ _ hvw]
        | error e =>
          simp [hlk, h₁, hF, Cache.lookup_set_ne _ _ _ _ hvw, h]

/-- Evaluation of `get` when the slot of `v` is populated: fast path. -/
theorem DownloadCache.get_slot_full (c : Cache)
    (F : Version → Except FetchError FPath) (v : Version) (p : FPath)
    (hlk : Cache.lookup c v = some (some p)) :
    DownloadCache.get c F v = (.ok p, c, false) := by
  simp [DownloadCache.get, DownloadCache.try_get, hlk]

/-- Evaluation of `get` when no entry exists and the fetcher succeeds. -/
theorem DownloadCache.get_entry_none_ok (c : Cache)
    (F : Version → Except FetchError FPath) (v : Version) (q : FPath)
    (hlk : Cache.lookup c v = none) (hF : F v = .ok q) :
    DownloadCache.get c F v
      = (.ok q, Cache.set (Cache.set c v none) v (some q), true) := by
  simp [DownloadCache.get, DownloadCache.try_get, DownloadCache.fetch, hlk,
    Cache.lookup_set_self, hF]

/-- Evaluation of `get` when no entry exists and the fetcher fails. -/
theorem DownloadCache.get_entry_none_err (c : Cache)
    (F : Version → Except FetchError FPath) (v : Version) (e : FetchError)
    (hlk : Cache.lookup c v = none) (hF : F v = .error e) :
    DownloadCache.get c F v = (.error e, Cache.set c v none, true) := by
  simp [DownloadCache.get, DownloadCache.try_get, DownloadCache.fetch, hlk,
    Cache.lookup_set_self, hF]

/-- Evaluation of `get` when the entry exists with an empty slot and the
fetcher succeeds. -/
theorem DownloadCache.get_slot_empty_ok (c : Cache)
    (F : Version → Except FetchError FPath) (v : Version) (q : FPath)
    (hlk : Cache.lookup c v = some none) (hF : F v = .ok q) :
    DownloadCache.get c F v = (.ok q, Cache.set c v (some q), true) := by
  simp [DownloadCache.get, DownloadCache.try_get, DownloadCache.fetch, hlk, hF]

/-- Evaluation of `get` when the entry exists with an empty slot and the
fetcher fails. -/
theorem DownloadCache.get_slot_empty_err (c : Cache)
    (F : Version → Except FetchError FPath) (v : Version) (e : FetchError)
    (hlk : Cache.lookup c v = some none) (hF : F v = .error e) :
    DownloadCache.get c F v = (.error e, c, true) := by
  simp [DownloadCache.get, DownloadCache.try_get, DownloadCache.fetch, hlk, hF]

theorem DownloadCache.get_ok_populates (c : Cache)
    (F : Version → Except FetchError FPath) (v : Version) (p : FPath)
    (c' : Cache) (b : Bool) (h : DownloadCache.get c F v = (.ok p, c', b)) :
    Cache.lookup c' v = some (some p) := by
  cases hlk : Cache.lookup c v with
  | some s =>
    cases s with
    | some q =>
      rw [DownloadCache.get_slot_full c F v q hlk] at h
      simp at h
      obtain ⟨hp, hc, -⟩ := h
      subst hp
      rw [← hc, hlk]
    | none =>
      cases hF : F v with
      | ok file =>
        rw [DownloadCache.get_slot_empty_ok c F v file hlk hF] at h
        simp at h
        obtain ⟨hp, hc, -⟩ := h
        subst hp
        rw [← hc]
        exact Cache.lookup_set_self c v _
      | error e =>
        rw [DownloadCache.get_slot_empty_err c F v e hlk hF] at h
        simp at h
  | none =>
    cases hF : F v with
    | ok file =>
      rw [DownloadCache.get_entry_none_ok c F v file hlk hF] at h
      simp at h
      obtain ⟨hp, hc, -⟩ := h
      subst hp
      rw [← hc]
      exact Cache.lookup_set_self _ v _
    | error e =>
      rw [DownloadCache.get_entry_none_err c F v e hlk hF] at h
      simp at h

theorem DownloadCache.runGets_preserves_populated (v : Version) (p : FPath)
    (ops : List ((Version → Except FetchError FPath) × Version)) :
    ∀ c : Cache, Cache.lookup c v = some (some p) →
      Cache.lookup (DownloadCache.runGets c ops) v = some (some p) := by
  induction ops with
  | nil => intro c h; exact h
  | cons op rest ih =>
    intro c h
    exact ih _ (DownloadCache.get_preserves_populated c v p op.1 op.2 h)

/-- C3. Once one `get` call on a cache has succeeded returning path `p` for
version `v`, every later `get` for `v` — after any further sequence of `get`
operations with arbitrary fetchers and versions, and with any fetcher —
succeeds, returns the same path `p`, leaves the cache unchanged, and does not
invoke the fetcher's `fetch` again (the fast path returns the populated
slot). -/
theorem DownloadCache.result_stability (c : Cache)
    (F : Version → Except FetchError FPath) (v : Version) (p : FPath)
    (c' : Cache) (b : Bool) (h : DownloadCache.get c F v = (.ok p, c', b))
    (ops : List ((Version → Except FetchError FPath) × Version))
    (F' : Version → Except FetchError FPath) :
    DownloadCache.get (DownloadCache.runGets c' ops) F' v
      = (.ok p, DownloadCache.runGets c' ops, false) := by
  have hpop := DownloadCache.get_ok_populates c F v p c' b h
  have hpop' := DownloadCache.runGets_preserves_populated v p ops c' hpop
  simp [DownloadCache.get, DownloadCache.try_get, hpop']

/-- C3 witness: a concrete first `get` populates the slot; the next `get`
(through an interleaved `get` for another version) returns the same path
without fetching. -/
theorem DownloadCache.result_stability_witness :
    DownloadCache.get
      (DownloadCache.runGets [(Version.release 1 0 0 [0, 0, 0, 0], some ["p"])]
        [(fun _ => .ok ["q"], Version.release 2 0 0 [0, 0, 0, 0])])
      (fun _ => .error (.Fetch "down")) (Version.release 1 0 0 [0, 0, 0, 0])
      = (.ok ["p"],
         DownloadCache.runGets [(Version.release 1 0 0 [0, 0, 0, 0], some ["p"])]
           [(fun _ => .ok ["q"], Version.release 2 0 0 [0, 0, 0, 0])],
         false) :=
  DownloadCache.result_stability [] (fun _ => .ok ["p"])
    (Version.release 1 0 0 [0, 0, 0, 0]) ["p"]
    [(Version.release 1 0 0 [0, 0, 0, 0], some ["p"])] true rfl
    [(fun _ => .ok ["q"], Version.release 2 0 0 [0, 0, 0, 0])]
    (fun _ => .error (.Fetch "down"))

/-- C4. If the slot of `v` is empty (absent entry or empty slot, i.e.
`try_get` sees nothing) and the fetcher fails with error `e`, then `get`
surfaces exactly `e`, the entry of `v` exists but its slot stays empty, and a
subsequent `get` with the same fetcher invokes `fetch` again and surfaces the
error again: no error value is ever cached. -/
theorem DownloadCache.error_not_cached (c : Cache)
    (F : Version → Except FetchError FPath) (v : Version) (e : FetchError)
    (hempty : DownloadCache.try_get c v = none) (hF : F v = .error e) :
    ∃ c', DownloadCache.get c F v = (.error e, c', true)
      ∧ Cache.lookup c' v = some none
      ∧ DownloadCache.get c' F v = (.error e, c', true) := by
  unfold DownloadCache.try_get at hempty
  cases hlk : Cache.lookup c v with
  | some s =>
    cases s with
    | some q => rw [hlk] at hempty; simp at hempty
    | none =>
      exact ⟨c, DownloadCache.get_slot_empty_err c F v e hlk hF, hlk,
        DownloadCache.get_slot_empty_err c F v e hlk hF⟩
  | none =>
    exact ⟨Cache.set c v none, DownloadCache.get_entry_none_err c F v e hlk hF,
      Cache.lookup_set_self c v none,
      DownloadCache.get_slot_empty_err _ F v e (Cache.lookup_set_self c v none)
        hF⟩

/-- C4 witness: concrete failing fetcher on an empty cache. -/
theorem DownloadCache.error_not_cached_witness :
    DownloadCache.try_get [] (Version.release 1 0 0 [0, 0, 0, 0]) = none ∧
    ∃ c', DownloadCache.get [] (fun _ => .error (.Fetch "boom"))
        (Version.release 1 0 0 [0, 0, 0, 0])
        = (.error (.Fetch "boom"), c', true)
      ∧ Cache.lookup c' (Version.release 1 0 0 [0, 0, 0, 0]) = some none
      ∧ DownloadCache.get c' (fun _ => .error (.Fetch "boom"))
          (Version.release 1 0 0 [0, 0, 0, 0])
          = (.error (.Fetch "boom"), c', true) :=
  ⟨rfl, DownloadCache.error_not_cached [] (fun _ => .error (.Fetch "boom"))
    (Version.release 1 0 0 [0, 0, 0, 0]) (.Fetch "boom") rfl rfl⟩

theorem lfdStep_no_hash (digest : List Nat → H256) (fetcher : FetcherM)
    (readF : FPath → Except IOErr (List Nat)) (c : Cache)
    (vp : Version × FPath) (h : fetcher.get_hash vp.1 = none) :
    lfdStep digest fetcher readF c vp = .ok c := by
  simp [lfdStep, h]

theorem lfdStep_read_err (digest : List Nat → H256) (fetcher : FetcherM)
    (readF : FPath → Except IOErr (List Nat)) (c : Cache)
    (vp : Version × FPath) (hh : H256) (e : IOErr)
    (h : fetcher.get_hash vp.1 = some hh) (hr : readF vp.2 = .error e) :
    lfdStep digest fetcher readF c vp = .error e := by
  simp [lfdStep, h, hr]

theorem lfdStep_install (digest : List Nat → H256) (fetcher : FetcherM)
    (readF : FPath → Except IOErr (List Nat)) (c : Cache)
    (vp : Version × FPath) (hh : H256) (bytes : List Nat)
    (h : fetcher.get_hash vp.1 = some hh) (hr : readF vp.2 = .ok bytes)
    (hd : digest bytes = hh) :
    lfdStep digest fetcher readF c vp = .ok (Cache.set c vp.1 (some vp.2)) := by
  simp [lfdStep, h, hr, check_hashsum, hd]

theorem lfdStep_mismatch (digest : List Nat → H256) (fetcher : FetcherM)
    (readF : FPath → Except IOErr (List Nat)) (c : Cache)
    (vp : Version × FPath) (hh : H256) (bytes : List Nat)
    (h : fetcher.get_hash vp.1 = some hh) (hr : readF vp.2 = .ok bytes)
    (hd : digest bytes ≠ hh) :
    lfdStep digest fetcher readF c vp = .ok c := by
  have hd' : ¬ (hh = digest bytes) := fun hx => hd hx.symm
  simp [lfdStep, h, hr, check_hashsum, hd']

theorem collectHM_subset (l : List (Version × FPath)) :
    ∀ x ∈ collectHM l, x ∈ l := by
  induction l with
  | nil => intro x hx; exact absurd hx (by simp [collectHM])
  | cons vp rest ih =>
    obtain ⟨v, p⟩ := vp
    intro x hx
    rw [collectHM] at hx
    by_cases hany : (collectHM rest).any (fun e => decide (e.1 = v))
    · rw [if_pos hany] at hx
      exact List.mem_cons_of_mem _ (ih x hx)
    · rw [if_neg hany] at hx
      rcases List.mem_cons.mp hx with heq | hmem
      · exact heq ▸ List.mem_cons_self _ _
      · exact List.mem_cons_of_mem _ (ih x hmem)

theorem collectHM_eq_of_nodup (l : List (Version × FPath))
    (h : (l.map Prod.fst).Nodup) : collectHM l = l := by
  induction l with
  | nil => rfl
  | cons vp rest ih =>
    obtain ⟨v, p⟩ := vp
    simp only [List.map_cons] at h
    obtain ⟨hnotin, hrest⟩ := List.nodup_cons.mp h
    have hc := ih hrest
    rw [collectHM, hc]
    have hany : ¬ rest.any (fun e => decide (e.1 = v)) := by
      intro hx
      obtain ⟨e, hmem, he⟩ := List.any_eq_true.mp hx
      exact hnotin (List.mem_map.mpr ⟨e, hmem, by simpa using he⟩)
    rw [if_neg hany]

theorem keys_nodup_unique (l : List (Version × FPath)) (v : Version)
    (p q : FPath) (h : (l.map Prod.fst).Nodup)
    (hp : (v, p) ∈ l) (hq : (v, q) ∈ l) : p = q := by
  induction l with
  | nil => exact absurd hp (by simp)
  | cons e rest ih =>
    simp only [List.map_cons] at h
    obtain ⟨hnotin, hrest⟩ := List.nodup_cons.mp h
    rcases List.mem_cons.mp hp with hep | hpr
    · rcases List.mem_cons.mp hq with heq | hqr
      · rw [← hep] at heq
        injection heq with h₁ h₂
        exact h₂.symm
      · exfalso
        apply hnotin
        rw [← hep]
        exact List.mem_map.mpr ⟨(v, q), hqr, rfl⟩
    · rcases List.mem_cons.mp hq with heq | hqr
      · exfalso
        apply hnotin
        rw [← heq]
        exact List.mem_map.mpr ⟨(v, p), hpr, rfl⟩
      · exact ih hrest hpr hqr

/-- Invariant of the `load_from_dir` loop over a list of version entries with
pairwise-distinct versions, when every entry with a known manifest hash reads
successfully: the loop completes, slots of versions with a good entry point
at that entry's path, and all other slots are untouched. -/
theorem lfd_loop (digest : List Nat → H256) (fetcher : FetcherM)
    (readF : FPath → Except IOErr (List Nat)) (l : List (Version × FPath))
    (hreads : ∀ vp ∈ l, (fetcher.get_hash vp.1).isSome = true →
      (readF vp.2).isOk = true)
    (hnodup : (l.map Prod.fst).Nodup) :
    ∀ c : Cache, ∃ c',
      l.foldlM (lfdStep digest fetcher readF) c = .ok c'
      ∧ ∀ v : Version,
        ((∃ p, (v, p) ∈ l ∧ goodInstall digest fetcher readF v p) →
          ∃ p, (v, p) ∈ l ∧ goodInstall digest fetcher readF v p
            ∧ Cache.lookup c' v = some (some p))
        ∧ ((¬ ∃ p, (v, p) ∈ l ∧ goodInstall digest fetcher readF v p) →
          Cache.lookup c' v = Cache.lookup c v) := by
  induction l with
  | nil =>
    intro c
    exact ⟨c, rfl, fun v => ⟨fun h => absurd h (by simp), fun _ => rfl⟩⟩
  | cons vp rest ih =>
    obtain ⟨v₀, p₀⟩ := vp
    have hreads₀ := hreads (v₀, p₀) (List.mem_cons_self _ _)
    have hreadsRest : ∀ vp ∈ rest, (fetcher.get_hash vp.1).isSome = true →
        (readF vp.2).isOk = true :=
      fun vp hm => hreads vp (List.mem_cons_of_mem _ hm)
    simp only [List.map_cons] at hnodup
    obtain ⟨hv₀notin, hnodupRest⟩ := List.nodup_cons.mp hnodup
    intro c
    have hfoldcons : ∀ (c₁ : Cache),
        lfdStep digest fetcher readF c (v₀, p₀) = .ok c₁ →
        ((v₀, p₀) :: rest).foldlM (lfdStep digest fetcher readF) c
          = rest.foldlM (lfdStep digest fetcher readF) c₁ := by
      intro c₁ hstep
      rw [List.foldlM_cons, hstep]
      rfl
    cases hh : fetcher.get_hash v₀ with
    | none =>
      have hstep := lfdStep_no_hash digest fetcher readF c (v₀, p₀) hh
      obtain ⟨c', hfold, hprop⟩ := ih hreadsRest hnodupRest c
      refine ⟨c', by rw [hfoldcons c hstep]; exact hfold, ?_⟩
      intro v
      constructor
      · rintro ⟨p, hmem, hgood⟩
        rcases List.mem_cons.mp hmem with heq | hmemrest
        · injection heq with h₁ h₂
          subst h₁
          subst h₂
          obtain ⟨hhv, hhh, -⟩ := hgood
          rw [hh] at hhh
          exact absurd hhh (by simp)
        · obtain ⟨p', hm', hg', hlk'⟩ := (hprop v).1 ⟨p, hmemrest, hgood⟩
          exact ⟨p', List.mem_cons_of_mem _ hm', hg', hlk'⟩
      · intro hnone
        refine (hprop v).2 ?_
        rintro ⟨p, hm, hg⟩
        exact hnone ⟨p, List.mem_cons_of_mem _ hm, hg⟩
    | some hhv =>
      have hisok := hreads₀ (by simp [hh])
      cases hr : readF p₀ with
      | error e =>
        rw [hr] at hisok
        exact absurd hisok (by simp [Except.isOk, Except.toBool])
      | ok bytes =>
        by_cases hd : digest bytes = hhv
        · have hstep := lfdStep_install digest fetcher readF c (v₀, p₀)
            hhv bytes hh hr hd
          obtain ⟨c', hfold, hprop⟩ :=
            ih hreadsRest hnodupRest (Cache.set c v₀ (some p₀))
          refine ⟨c', by rw [hfoldcons _ hstep]; exact hfold, ?_⟩
          intro v
          by_cases hvv : v = v₀
          · subst hvv
            have hnotinrest :
                ¬ ∃ p, (v, p) ∈ rest ∧ goodInstall digest fetcher readF v p := by
              rintro ⟨p, hm, -⟩
              exact hv₀notin (List.mem_map.mpr ⟨(v, p), hm, rfl⟩)
            have hlk := (hprop v).2 hnotinrest
            have hgood₀ : goodInstall digest fetcher readF v p₀ :=
              ⟨hhv, hh, bytes, hr, hd⟩
            constructor
            · intro _
              refine ⟨p₀, List.mem_cons_self _ _, hgood₀, ?_⟩
              rw [hlk]
              exact Cache.lookup_set_self c v (some p₀)
            · intro hno
              exact absurd ⟨p₀, List.mem_cons_self _ _, hgood₀⟩ hno
          · constructor
            · rintro ⟨p, hm, hg⟩
              rcases List.mem_cons.mp hm with heq | hmr
              · injection heq with h₁ h₂
                exact absurd h₁ hvv
              · obtain ⟨p', hm', hg', hlk'⟩ := (hprop v).1 ⟨p, hmr, hg⟩
                exact ⟨p', List.mem_cons_of_mem _ hm', hg', hlk'⟩
            · intro hno
              have hnr :
                  ¬ ∃ p, (v, p) ∈ rest ∧ goodInstall digest fetcher readF v p :=
                fun ⟨p, hm, hg⟩ => hno ⟨p, List.mem_cons_of_mem _ hm, hg⟩
              rw [(hprop v).2 hnr]
              exact Cache.lookup_set_ne c v₀ v (some p₀) hvv
        · have hstep := lfdStep_mismatch digest fetcher readF c (v₀, p₀)
            hhv bytes hh hr hd
          obtain ⟨c', hfold, hprop⟩ := ih hreadsRest hnodupRest c
          refine ⟨c', by rw [hfoldcons c hstep]; exact hfold, ?_⟩
          intro v
          constructor
          · rintro ⟨p, hmem, hgood⟩
            rcases List.mem_cons.mp hmem with heq | hmemrest
            · injection heq with h₁ h₂
              subst h₁
              subst h₂
              obtain ⟨hh', hhh', bytes', hr', hd'⟩ := hgood
              rw [hh] at hhh'
              injection hhh' with hhh'
              rw [hr] at hr'
              injection hr' with hr'
              exact absurd (hr' ▸ hhh' ▸ hd') hd
            · obtain ⟨p', hm', hg', hlk'⟩ := (hprop v).1 ⟨p, hmemrest, hgood⟩
              exact ⟨p', List.mem_cons_of_mem _ hm', hg', hlk'⟩
          · intro hnone
            refine (hprop v).2 ?_
            rintro ⟨p, hm, hg⟩
            exact hnone ⟨p, List.mem_cons_of_mem _ hm, hg⟩

theorem foldlM_lfd_cons (digest : List Nat → H256) (fetcher : FetcherM)
    (readF : FPath → Except IOErr (List Nat)) (c c₁ : Cache)
    (vp : Version × FPath) (rest : List (Version × FPath))
    (hstep : lfdStep digest fetcher readF c vp = .ok c₁) :
    (vp :: rest).foldlM (lfdStep digest fetcher readF) c
      = rest.foldlM (lfdStep digest fetcher readF) c₁ := by
  rw [List.foldlM_cons, hstep]
  rfl

theorem foldlM_lfd_cons_err (digest : List Nat → H256) (fetcher : FetcherM)
    (readF : FPath → Except IOErr (List Nat)) (c : Cache) (e : IOErr)
    (vp : Version × FPath) (rest : List (Version × FPath))
    (hstep : lfdStep digest fetcher readF c vp = .error e) :
    (vp :: rest).foldlM (lfdStep digest fetcher readF) c = .error e := by
  rw [List.foldlM_cons, hstep]
  rfl

/-- When every entry of a list with a known manifest hash reads
successfully, the `load_from_dir` loop over that list runs to completion
from any cache. -/
theorem lfd_loop_ok (digest : List Nat → H256) (fetcher : FetcherM)
    (readF : FPath → Except IOErr (List Nat)) :
    ∀ l : List (Version × FPath),
      (∀ vp ∈ l, (fetcher.get_hash vp.1).isSome = true →
        (readF vp.2).isOk = true) →
      ∀ c₀ : Cache, ∃ c',
        l.foldlM (lfdStep digest fetcher readF) c₀ = .ok c' := by
  intro l
  induction l with
  | nil => intro _ c₀; exact ⟨c₀, rfl⟩
  | cons vp rest ih =>
    intro hr c₀
    have hrRest : ∀ vp ∈ rest, (fetcher.get_hash vp.1).isSome = true →
        (readF vp.2).isOk = true :=
      fun vp hm => hr vp (List.mem_cons_of_mem _ hm)
    cases hh : fetcher.get_hash vp.1 with
    | none =>
      obtain ⟨c', hf⟩ := ih hrRest c₀
      exact ⟨c', by
        rw [foldlM_lfd_cons digest fetcher readF c₀ c₀ vp rest
          (lfdStep_no_hash digest fetcher readF c₀ vp hh)]
        exact hf⟩
    | some hhv =>
      have hisok := hr vp (List.mem_cons_self _ _) (by simp [hh])
      cases hrd : readF vp.2 with
      | error e =>
        rw [hrd] at hisok
        exact absurd hisok (by simp [Except.isOk, Except.toBool])
      | ok bytes =>
        by_cases hd : digest bytes = hhv
        · obtain ⟨c', hf⟩ := ih hrRest (Cache.set c₀ vp.1 (some vp.2))
          exact ⟨c', by
            rw [foldlM_lfd_cons digest fetcher readF c₀ _ vp rest
              (lfdStep_install digest fetcher readF c₀ vp hhv bytes
                hh hrd hd)]
            exact hf⟩
        · obtain ⟨c', hf⟩ := ih hrRest c₀
          exact ⟨c', by
            rw [foldlM_lfd_cons digest fetcher readF c₀ c₀ vp rest
              (lfdStep_mismatch digest fetcher readF c₀ vp hhv bytes
                hh hrd hd)]
            exact hf⟩

/-- The `load_from_dir` loop over `pre ++ l` runs `pre` first: when that
part completes with cache `c₁`, the whole fold is the fold of `l` from
`c₁`. -/
theorem foldlM_lfd_append (digest : List Nat → H256) (fetcher : FetcherM)
    (readF : FPath → Except IOErr (List Nat)) :
    ∀ (pre l : List (Version × FPath)) (c c₁ : Cache),
      pre.foldlM (lfdStep digest fetcher readF) c = .ok c₁ →
      (pre ++ l).foldlM (lfdStep digest fetcher readF) c
        = l.foldlM (lfdStep digest fetcher readF) c₁ := by
  intro pre
  induction pre with
  | nil =>
    intro l c c₁ h
    injection h with h
    rw [h]
    rfl
  | cons vp pre' ih =>
    intro l c c₁ h
    cases hstep : lfdStep digest fetcher readF c vp with
    | error e =>
      rw [foldlM_lfd_cons_err digest fetcher readF c e vp pre' hstep] at h
      exact absurd h (by simp)
    | ok c₂ =>
      rw [foldlM_lfd_cons digest fetcher readF c c₂ vp pre' hstep] at h
      calc ((vp :: pre') ++ l).foldlM (lfdStep digest fetcher readF) c
          = (pre' ++ l).foldlM (lfdStep digest fetcher readF) c₂ :=
            foldlM_lfd_cons digest fetcher readF c c₂ vp (pre' ++ l) hstep
        _ = l.foldlM (lfdStep digest fetcher readF) c₁ := ih l c₂ c₁ h

/-- C5. On an initially empty cache, `load_from_dir` installs a cache entry
exactly for those child directories of `fetcher.folder()` whose name parses
as a canonical `Version`, for which the fetcher knows an expected hash, and
whose `solc` file content hashes to that expected value (`rawVersionsOf`
collects the parseable directories, `goodInstall` states the last two
conditions); wrong-hash and unknown-version directories are not installed;
and a subsequent `get` for an installed version returns its path without
calling the fetcher. -/
theorem DownloadCache.load_from_dir_correct
    (digest : List Nat → H256) (fetcher : FetcherM)
    (read_dir : FPath → Except IOErr (List (Except IOErr FPath)))
    (readF : FPath → Except IOErr (List Nat))
    (entries : List (Except IOErr FPath))
    (hdir : read_dir fetcher.folder = .ok entries)
    (hnodup : ((rawVersionsOf entries).map Prod.fst).Nodup)
    (hreads : ∀ vp ∈ rawVersionsOf entries,
      (fetcher.get_hash vp.1).isSome = true → (readF vp.2).isOk = true) :
    ∃ c', DownloadCache.load_from_dir digest fetcher read_dir readF [] = .ok c'
      ∧ (∀ (v : Version) (p : FPath),
          Cache.lookup c' v = some (some p) ↔
            ((v, p) ∈ rawVersionsOf entries
              ∧ goodInstall digest fetcher readF v p))
      ∧ (∀ (v : Version) (p : FPath)
          (F : Version → Except FetchError FPath),
          Cache.lookup c' v = some (some p) →
          DownloadCache.get c' F v = (.ok p, c', false)) := by
  have hfv : DownloadCache.find_versions_in_dir entries
      = rawVersionsOf entries := collectHM_eq_of_nodup _ hnodup
  obtain ⟨c', hfold, hprop⟩ :=
    lfd_loop digest fetcher readF (rawVersionsOf entries) hreads hnodup []
  refine ⟨c', ?_, ?_, ?_⟩
  · simp only [DownloadCache.load_from_dir, hdir, hfv]
    exact hfold
  · intro v p
    constructor
    · intro hlk
      by_cases hex : ∃ q, (v, q) ∈ rawVersionsOf entries
          ∧ goodInstall digest fetcher readF v q
      · obtain ⟨q, hm, hg, hlk'⟩ := (hprop v).1 hex
        rw [hlk] at hlk'
        injection hlk' with h₁
        injection h₁ with h₂
        exact h₂ ▸ ⟨hm, hg⟩
      · have hun := (hprop v).2 hex
        rw [hlk] at hun
        exact absurd hun (by simp [Cache.lookup])
    · rintro ⟨hm, hg⟩
      obtain ⟨q, hmq, hgq, hlkq⟩ := (hprop v).1 ⟨p, hm, hg⟩
      have hq : q = p := keys_nodup_unique _ v q p hnodup hmq hm
      rw [← hq]
      exact hlkq
  · intro v p F hlk
    exact DownloadCache.get_slot_full c' F v p hlk

/-- C5 witness: a folder with one installable version directory and one
garbage directory. -/
theorem DownloadCache.load_from_dir_correct_witness :
    ∃ c', DownloadCache.load_from_dir (fun _ => [5]) ⟨["r"], fun _ => some [5]⟩
        (fun _ => .ok [.ok ["r", "v1.0.0+commit.aaaaaaaa"], .ok ["r", "garbage"]])
        (fun _ => .ok [9]) [] = .ok c'
      ∧ (∀ (v : Version) (p : FPath),
          Cache.lookup c' v = some (some p) ↔
            ((v, p) ∈ rawVersionsOf
                [.ok ["r", "v1.0.0+commit.aaaaaaaa"], .ok ["r", "garbage"]]
              ∧ goodInstall (fun _ => [5]) ⟨["r"], fun _ => some [5]⟩
                  (fun _ => .ok [9]) v p))
      ∧ (∀ (v : Version) (p : FPath)
          (F : Version → Except FetchError FPath),
          Cache.lookup c' v = some (some p) →
          DownloadCache.get c' F v = (.ok p, c', false)) :=
  DownloadCache.load_from_dir_correct (fun _ => [5]) ⟨["r"], fun _ => some [5]⟩
    (fun _ => .ok [.ok ["r", "v1.0.0+commit.aaaaaaaa"], .ok ["r", "garbage"]])
    (fun _ => .ok [9])
    [.ok ["r", "v1.0.0+commit.aaaaaaaa"], .ok ["r", "garbage"]]
    rfl (by decide) (by decide)

/-- C6 counterexample. A folder with a single version directory whose `solc`
file fails to read with a non-`NotFound` I/O error: `load_from_dir` does not
log-and-skip the entry and continue — it aborts, surfacing the error (the
`?` on `std::fs::read` in the loop body). Under the claim, the result would
be `Ok(())`. -/
theorem DownloadCache.load_from_dir_read_error_aborts_cex :
    DownloadCache.load_from_dir (fun _ => [0]) ⟨["r"], fun _ => some [1]⟩
      (fun _ => .ok [.ok ["r", "v1.0.0+commit.aaaaaaaa"]])
      (fun _ => .error (.other 7)) []
      = .error (.other 7) := rfl

/-- C6 amended. Directory entries that fail to parse as a version are
dropped silently; entries with an unknown version or a mismatched hash are
logged and skipped and the scan runs to completion; but an I/O error reading
a version's `solc` file — at any position in the processing order, the
known-hash entries before it reading successfully — aborts the whole
reconciliation with that error. -/
theorem DownloadCache.load_from_dir_error_policy
    (digest : List Nat → H256) (fetcher : FetcherM)
    (read_dir : FPath → Except IOErr (List (Except IOErr FPath)))
    (readF : FPath → Except IOErr (List Nat))
    (entries : List (Except IOErr FPath)) (c : Cache)
    (hdir : read_dir fetcher.folder = .ok entries) :
    ((∀ vp ∈ DownloadCache.find_versions_in_dir entries,
        (fetcher.get_hash vp.1).isSome = true → (readF vp.2).isOk = true) →
      ∃ c', DownloadCache.load_from_dir digest fetcher read_dir readF c
        = .ok c')
    ∧ (∀ (pre : List (Version × FPath)) (v₀ : Version) (p₀ : FPath)
        (rest : List (Version × FPath)) (hh : H256) (e : IOErr),
        DownloadCache.find_versions_in_dir entries
          = pre ++ (v₀, p₀) :: rest →
        (∀ vp ∈ pre, (fetcher.get_hash vp.1).isSome = true →
          (readF vp.2).isOk = true) →
        fetcher.get_hash v₀ = some hh → readF p₀ = .error e →
        DownloadCache.load_from_dir digest fetcher read_dir readF c
          = .error e) := by
  constructor
  · intro hreads
    obtain ⟨c', hf⟩ := lfd_loop_ok digest fetcher readF
      (DownloadCache.find_versions_in_dir entries) hreads c
    refine ⟨c', ?_⟩
    simp only [DownloadCache.load_from_dir, hdir]
    exact hf
  · intro pre v₀ p₀ rest hh e hfv hpre hhash hread
    obtain ⟨c₁, hpref⟩ := lfd_loop_ok digest fetcher readF pre hpre c
    simp only [DownloadCache.load_from_dir, hdir, hfv]
    rw [foldlM_lfd_append digest fetcher readF pre ((v₀, p₀) :: rest)
      c c₁ hpref]
    exact foldlM_lfd_cons_err digest fetcher readF c₁ e (v₀, p₀) rest
      (lfdStep_read_err digest fetcher readF c₁ (v₀, p₀) hh e hhash hread)

/-- C6 amended witness: a folder whose only collected entry has an unknown
version completes; a folder whose second collected entry (after a healthy
first one) fails to read aborts with that error. -/
theorem DownloadCache.load_from_dir_error_policy_witness :
    (∃ c', DownloadCache.load_from_dir (fun _ => [0])
        ⟨["r"], fun _ => none⟩
        (fun _ => .ok [.ok ["r", "v1.0.0+commit.aaaaaaaa"]])
        (fun _ => .error (.other 7)) [] = .ok c')
    ∧ DownloadCache.load_from_dir (fun _ => [1])
        ⟨["r"], fun _ => some [1]⟩
        (fun _ => .ok [.ok ["r", "v1.0.0+commit.aaaaaaaa"],
          .ok ["r", "v2.0.0+commit.aaaaaaaa"]])
        (fun p => if p = ["r", "v2.0.0+commit.aaaaaaaa", "solc"]
          then .error (.other 7) else .ok [9]) [] = .error (.other 7) :=
  ⟨(DownloadCache.load_from_dir_error_policy (fun _ => [0])
      ⟨["r"], fun _ => none⟩
      (fun _ => .ok [.ok ["r", "v1.0.0+commit.aaaaaaaa"]])
      (fun _ => .error (.other 7))
      [.ok ["r", "v1.0.0+commit.aaaaaaaa"]] [] rfl).1 (by decide),
   (DownloadCache.load_from_dir_error_policy (fun _ => [1])
      ⟨["r"], fun _ => some [1]⟩
      (fun _ => .ok [.ok ["r", "v1.0.0+commit.aaaaaaaa"],
        .ok ["r", "v2.0.0+commit.aaaaaaaa"]])
      (fun p => if p = ["r", "v2.0.0+commit.aaaaaaaa", "solc"]
        then .error (.other 7) else .ok [9])
      [.ok ["r", "v1.0.0+commit.aaaaaaaa"],
        .ok ["r", "v2.0.0+commit.aaaaaaaa"]] [] rfl).2
     [(.release 1 0 0 [0xaa, 0xaa, 0xaa, 0xaa],
       ["r", "v1.0.0+commit.aaaaaaaa", "solc"])]
     (.release 2 0 0 [0xaa, 0xaa, 0xaa, 0xaa])
     ["r", "v2.0.0+commit.aaaaaaaa", "solc"] [] [1] (.other 7)
     (by decide) (by decide) rfl rfl⟩

/-- C7. If the newly fetched value is structurally equal to the current
snapshot, `update_versions` acquires no write lock and the stored value is
unchanged; if it differs, the value is swapped in, so every subsequent read
returns the new value. -/
theorem RefreshableVersions.refresh_idempotence {T : Type} [DecidableEq T]
    (s n : T) :
    (n = s → RefreshableVersions.update_versions s n = (s, [.readLock])
      ∧ LockEv.writeLock ∉ (RefreshableVersions.update_versions s n).2)
    ∧ (n ≠ s → (RefreshableVersions.update_versions s n).1 = n
      ∧ LockEv.writeLock ∈ (RefreshableVersions.update_versions s n).2) := by
  constructor
  · intro h
    subst h
    constructor
    · simp [RefreshableVersions.update_versions]
    · simp [RefreshableVersions.update_versions]
  · intro h
    constructor
    · simp [RefreshableVersions.update_versions, h]
    · simp [RefreshableVersions.update_versions, h]

/-- C7 witness: equal and different snapshots over `Nat`. -/
theorem RefreshableVersions.refresh_idempotence_witness :
    (RefreshableVersions.update_versions (1 : Nat) 1 = (1, [.readLock])
      ∧ LockEv.writeLock ∉ (RefreshableVersions.update_versions (1 : Nat) 1).2)
    ∧ ((RefreshableVersions.update_versions (1 : Nat) 2).1 = 2
      ∧ LockEv.writeLock ∈ (RefreshableVersions.update_versions (1 : Nat) 2).2) :=
  ⟨(RefreshableVersions.refresh_idempotence 1 1).1 rfl,
   (RefreshableVersions.refresh_idempotence 1 2).2 (by decide)⟩

/-- C8. `Versions::fetch_versions` lists the bucket with empty prefix and
delimiter `"/"`, and returns exactly the set of common prefixes of that
listing that parse as canonical versions; every unparseable common prefix is
silently discarded. -/
theorem Versions.fetch_versions_listing (b : BucketM)
    (folders : List ListBucketResultM)
    (hlist : b.list "" (some "/") = .ok folders) :
    ∃ vs, Versions.fetch_versions b = .ok vs
      ∧ ∀ v : Version, v ∈ vs ↔
        ∃ r ∈ folders, ∃ cps, r.common_prefixes = some cps
          ∧ ∃ cp ∈ cps, Version.from_str cp.pfx = some v := by
  refine ⟨((folders.filterMap (fun x => x.common_prefixes)).flatten).filterMap
      (fun x => Version.from_str x.pfx), ?_, ?_⟩
  · simp only [Versions.fetch_versions, hlist]
  intro v
  constructor
  · intro hv
    obtain ⟨cp, hcp, hparse⟩ := List.mem_filterMap.mp hv
    obtain ⟨l, hl, hcpl⟩ := List.mem_flatten.mp hcp
    obtain ⟨r, hr, hrl⟩ := List.mem_filterMap.mp hl
    exact ⟨r, hr, l, hrl, cp, hcpl, hparse⟩
  · rintro ⟨r, hr, cps, hcps, cp, hcp, hparse⟩
    exact List.mem_filterMap.mpr
      ⟨cp, List.mem_flatten.mpr ⟨cps, List.mem_filterMap.mpr ⟨r, hr, hcps⟩, hcp⟩,
        hparse⟩

/-- C8 witness: a listing with three canonical version prefixes and a
`garbage/` prefix. -/
theorem Versions.fetch_versions_listing_witness :
    ∃ vs, Versions.fetch_versions
        ⟨fun p d =>
          if p = "" ∧ d = some "/" then
            .ok [⟨some [⟨"v0.4.10+commit.f0d539ae"⟩, ⟨"v0.8.13+commit.abaa5c0e"⟩,
              ⟨"v0.5.1+commit.c8a2cb62"⟩, ⟨"garbage/"⟩]⟩]
          else .error "wrong arguments",
         fun _ => .error .Schedule⟩ = .ok vs
      ∧ ∀ v : Version, v ∈ vs ↔
        ∃ r ∈ [(⟨some [⟨"v0.4.10+commit.f0d539ae"⟩, ⟨"v0.8.13+commit.abaa5c0e"⟩,
            ⟨"v0.5.1+commit.c8a2cb62"⟩, ⟨"garbage/"⟩]⟩ : ListBucketResultM)],
          ∃ cps, r.common_prefixes = some cps
            ∧ ∃ cp ∈ cps, Version.from_str cp.pfx = some v :=
  Versions.fetch_versions_listing _ _ rfl

/-- C10. If the `sha256.hash` object GET returns status 200 with a body that
is not exactly 32 bytes (and the `solc` GET returns 200), `H256::from_slice`
panics, so `S3Fetcher::fetch_file` — and with it `S3Fetcher::fetch` —
terminates abnormally instead of returning a `HashMismatch` or `Fetch` error
to the caller. -/
theorem S3Fetcher.fetch_short_hash_panics (b : BucketM)
    (versions : List Version) (ver : Version) (folder : FPath)
    (digest : List Nat → H256) (fs : FS)
    (hashBody dataBody : List Nat)
    (hmem : ver ∈ versions)
    (hhash : b.get_object [ver.to_string, "sha256.hash"]
      = .ok (hashBody, 200))
    (hdata : b.get_object [ver.to_string, "solc"] = .ok (dataBody, 200))
    (hlen : hashBody.length ≠ 32) :
    S3Fetcher.fetch_file b versions ver = .panic
    ∧ S3Fetcher.fetch b versions folder digest fs ver = .panic := by
  have hfile : S3Fetcher.fetch_file b versions ver = .panic := by
    simp [S3Fetcher.fetch_file, hmem, hhash, hdata, H256.from_slice, hlen]
  exact ⟨hfile, by simp [S3Fetcher.fetch, hfile]⟩

/-- C10 witness: a 31-byte `sha256.hash` body. -/
theorem S3Fetcher.fetch_short_hash_panics_witness :
    S3Fetcher.fetch_file
      ⟨fun _ _ => .error "unused",
       fun p => if p = [(Version.release 1 0 0 [0, 0, 0, 0]).to_string,
          "sha256.hash"] then .ok (List.replicate 31 0, 200)
        else .ok ([1], 200)⟩
      [.release 1 0 0 [0, 0, 0, 0]] (.release 1 0 0 [0, 0, 0, 0]) = .panic
    ∧ S3Fetcher.fetch
      ⟨fun _ _ => .error "unused",
       fun p => if p = [(Version.release 1 0 0 [0, 0, 0, 0]).to_string,
          "sha256.hash"] then .ok (List.replicate 31 0, 200)
        else .ok ([1], 200)⟩
      [.release 1 0 0 [0, 0, 0, 0]] ["root"] (fun _ => [0]) ⟨[], [], none⟩
      (.release 1 0 0 [0, 0, 0, 0]) = .panic :=
  S3Fetcher.fetch_short_hash_panics _ _ _ _ _ _ (List.replicate 31 0) [1]
    (by decide) rfl rfl (by decide)

theorem sfStep_start_hit {n : Nat} {V P : Type} [DecidableEq V]
    (vs : Fin n → V) (f : V → P) (s : SFState n V P) (i : Fin n) (p : P)
    (hpc : s.pc i = .start) (hslot : s.slot (vs i) = some p) :
    sfStep vs f s i
      = { s with pc := fun j => if j = i then .done p else s.pc j } := by
  simp [sfStep, hpc, hslot]

theorem sfStep_start_miss {n : Nat} {V P : Type} [DecidableEq V]
    (vs : Fin n → V) (f : V → P) (s : SFState n V P) (i : Fin n)
    (hpc : s.pc i = .start) (hslot : s.slot (vs i) = none) :
    sfStep vs f s i
      = { s with pc := fun j => if j = i then .wantLock else s.pc j } := by
  simp [sfStep, hpc, hslot]

theorem sfStep_blocked {n : Nat} {V P : Type} [DecidableEq V]
    (vs : Fin n → V) (f : V → P) (s : SFState n V P) (i k : Fin n)
    (hpc : s.pc i = .wantLock) (hlk : s.lock (vs i) = some k) :
    sfStep vs f s i = s := by
  simp [sfStep, hpc, hlk]

theorem sfStep_acquire_hit {n : Nat} {V P : Type} [DecidableEq V]
    (vs : Fin n → V) (f : V → P) (s : SFState n V P) (i : Fin n) (p : P)
    (hpc : s.pc i = .wantLock) (hlk : s.lock (vs i) = none)
    (hslot : s.slot (vs i) = some p) :
    sfStep vs f s i
      = { s with pc := fun j => if j = i then .done p else s.pc j } := by
  simp [sfStep, hpc, hlk, hslot]

theorem sfStep_acquire_fetch {n : Nat} {V P : Type} [DecidableEq V]
    (vs : Fin n → V) (f : V → P) (s : SFState n V P) (i : Fin n)
    (hpc : s.pc i = .wantLock) (hlk : s.lock (vs i) = none)
    (hslot : s.slot (vs i) = none) :
    sfStep vs f s i
      = { s with
          pc := fun j => if j = i then .fetching else s.pc j,
          lock := fun v => if v = vs i then some i else s.lock v,
          count := fun v => if v = vs i then s.count v + 1 else s.count v } := by
  simp [sfStep, hpc, hlk, hslot]

theorem sfStep_complete {n : Nat} {V P : Type} [DecidableEq V]
    (vs : Fin n → V) (f : V → P) (s : SFState n V P) (i : Fin n)
    (hpc : s.pc i = .fetching) :
    sfStep vs f s i
      = { s with
          pc := fun j => if j = i then .done (f (vs i)) else s.pc j,
          slot := fun v => if v = vs i then some (f (vs i)) else s.slot v,
          lock := fun v => if v = vs i then none else s.lock v } := by
  simp [sfStep, hpc]

theorem sfStep_done {n : Nat} {V P : Type} [DecidableEq V]
    (vs : Fin n → V) (f : V → P) (s : SFState n V P) (i : Fin n) (p : P)
    (hpc : s.pc i = .done p) : sfStep vs f s i = s := by
  simp [sfStep, hpc]

/-- A step that only moves one task's program counter (to a non-`fetching`
target, with the slot populated when the target is `done`) preserves the
invariant. -/
theorem sfInv_pcUpdate {n : Nat} {V P : Type} [DecidableEq V] [DecidableEq P]
    (vs : Fin n → V) (s : SFState n V P) (i : Fin n) (q : SFPC P)
    (h : sfInv vs s) (hq₁ : q ≠ .fetching)
    (hq₂ : ∀ p : P, q = .done p → (s.slot (vs i)).isSome = true)
    (hnotf : s.pc i ≠ .fetching) :
    sfInv vs { s with pc := fun j => if j = i then q else s.pc j } := by
  obtain ⟨h1, h2, h3, h4, h5⟩ := h
  unfold sfInv
  dsimp only
  refine ⟨?_, ?_, ?_, h4, ?_⟩
  · intro v j hlk
    obtain ⟨hvj, hpj⟩ := h1 v j hlk
    have hji : j ≠ i := fun hh => hnotf (hh ▸ hpj)
    exact ⟨hvj, by rw [if_neg hji]; exact hpj⟩
  · intro j hpj
    by_cases hji : j = i
    · subst hji
      rw [if_pos rfl] at hpj
      exact absurd hpj hq₁
    · rw [if_neg hji] at hpj
      exact h2 j hpj
  · intro j p hpj
    by_cases hji : j = i
    · subst hji
      rw [if_pos rfl] at hpj
      exact hq₂ p hpj
    · rw [if_neg hji] at hpj
      exact h3 j p hpj
  · intro v
    have hiff : (∃ j, vs j = v ∧ (if j = i then q else s.pc j) = SFPC.fetching)
        ↔ (∃ j, vs j = v ∧ s.pc j = SFPC.fetching) := by
      constructor
      · rintro ⟨j, hvj, hpj⟩
        by_cases hji : j = i
        · subst hji
          rw [if_pos rfl] at hpj
          exact absurd hpj hq₁
        · rw [if_neg hji] at hpj
          exact ⟨j, hvj, hpj⟩
      · rintro ⟨j, hvj, hpj⟩
        have hji : j ≠ i := fun hh => hnotf (hh ▸ hpj)
        exact ⟨j, hvj, by rw [if_neg hji]; exact hpj⟩
    rw [h5 v]
    congr 1
    exact (if_congr hiff rfl rfl).symm

/-- The protocol invariant is preserved by every scheduler step. -/
theorem sfInv_step {n : Nat} {V P : Type} [DecidableEq V] [DecidableEq P]
    (vs : Fin n → V) (f : V → P) (s : SFState n V P) (i : Fin n)
    (h : sfInv vs s) : sfInv vs (sfStep vs f s i) := by
  cases hpc : s.pc i with
  | start =>
    cases hslot : s.slot (vs i) with
    | some p =>
      rw [sfStep_start_hit vs f s i p hpc hslot]
      exact sfInv_pcUpdate vs s i (.done p) h (by simp)
        (fun q hq => by rw [hslot]; rfl) (by rw [hpc]; simp)
    | none =>
      rw [sfStep_start_miss vs f s i hpc hslot]
      exact sfInv_pcUpdate vs s i .wantLock h (by simp)
        (fun q hq => by simp at hq) (by rw [hpc]; simp)
  | wantLock =>
    cases hlk : s.lock (vs i) with
    | some k =>
      rw [sfStep_blocked vs f s i k hpc hlk]
      exact h
    | none =>
      cases hslot : s.slot (vs i) with
      | some p =>
        rw [sfStep_acquire_hit vs f s i p hpc hlk hslot]
        exact sfInv_pcUpdate vs s i (.done p) h (by simp)
          (fun q hq => by rw [hslot]; rfl) (by rw [hpc]; simp)
      | none =>
        rw [sfStep_acquire_fetch vs f s i hpc hlk hslot]
        obtain ⟨h1, h2, h3, h4, h5⟩ := h
        unfold sfInv
        dsimp only
        refine ⟨?_, ?_, ?_, h4, ?_⟩
        · intro v j hlkv
          by_cases hvi : v = vs i
          · rw [if_pos hvi] at hlkv
            injection hlkv with hij
            subst hij
            exact ⟨hvi.symm, by rw [if_pos rfl]⟩
          · rw [if_neg hvi] at hlkv
            obtain ⟨hvj, hpj⟩ := h1 v j hlkv
            have hji : j ≠ i := fun hh => by
              rw [hh, hpc] at hpj
              exact absurd hpj (by simp)
            exact ⟨hvj, by rw [if_neg hji]; exact hpj⟩
        · intro j hpj
          by_cases hji : j = i
          · subst hji
            exact ⟨by rw [if_pos rfl], hslot⟩
          · rw [if_neg hji] at hpj
            obtain ⟨hlkj, hslj⟩ := h2 j hpj
            have hvji : vs j ≠ vs i := fun hh => by
              rw [hh, hlk] at hlkj
              exact absurd hlkj (by simp)
            exact ⟨by rw [if_neg hvji]; exact hlkj, hslj⟩
        · intro j p hpj
          by_cases hji : j = i
          · subst hji
            rw [if_pos rfl] at hpj
            exact absurd hpj (by simp)
          · rw [if_neg hji] at hpj
            exact h3 j p hpj
        · intro v
          by_cases hvi : v = vs i
          · subst hvi
            rw [if_pos rfl, h5 (vs i), hslot]
            have hnof : ¬ ∃ j, vs j = vs i ∧ s.pc j = SFPC.fetching := by
              rintro ⟨j, hvj, hpj⟩
              obtain ⟨hlkj, -⟩ := h2 j hpj
              rw [hvj] at hlkj
              rw [hlkj] at hlk
              exact absurd hlk (by simp)
            have hyesf : ∃ j, vs j = vs i
                ∧ (if j = i then SFPC.fetching else s.pc j) = SFPC.fetching :=
              ⟨i, rfl, by rw [if_pos rfl]⟩
            rw [if_neg hnof, if_pos hyesf]
          · rw [if_neg hvi, h5 v]
            congr 1
            have hiff : (∃ j, vs j = v
                ∧ (if j = i then SFPC.fetching else s.pc j) = SFPC.fetching)
                ↔ (∃ j, vs j = v ∧ s.pc j = SFPC.fetching) := by
              constructor
              · rintro ⟨j, hvj, hpj⟩
                by_cases hji : j = i
                · subst hji
                  exact absurd hvj.symm hvi
                · rw [if_neg hji] at hpj
                  exact ⟨j, hvj, hpj⟩
              · rintro ⟨j, hvj, hpj⟩
                have hji : j ≠ i := fun hh => by
                  rw [hh, hpc] at hpj
                  exact absurd hpj (by simp)
                exact ⟨j, hvj, by rw [if_neg hji]; exact hpj⟩
            exact (if_congr hiff rfl rfl).symm
  | fetching =>
    rw [sfStep_complete vs f s i hpc]
    obtain ⟨h1, h2, h3, h4, h5⟩ := h
    obtain ⟨hlki, hsli⟩ := h2 i hpc
    unfold sfInv
    dsimp only
    refine ⟨?_, ?_, ?_, ?_, ?_⟩
    · intro v j hlkv
      by_cases hvi : v = vs i
      · rw [if_pos hvi] at hlkv
        exact absurd hlkv (by simp)
      · rw [if_neg hvi] at hlkv
        obtain ⟨hvj, hpj⟩ := h1 v j hlkv
        have hji : j ≠ i := fun hh => hvi (by rw [← hvj, hh])
        exact ⟨hvj, by rw [if_neg hji]; exact hpj⟩
    · intro j hpj
      by_cases hji : j = i
      · subst hji
        rw [if_pos rfl] at hpj
        exact absurd hpj (by simp)
      · rw [if_neg hji] at hpj
        obtain ⟨hlkj, hslj⟩ := h2 j hpj
        have hvji : vs j ≠ vs i := fun hh => by
          rw [hh, hlki] at hlkj
          injection hlkj with hij
          exact hji hij.symm
        exact ⟨by rw [if_neg hvji]; exact hlkj, by rw [if_neg hvji]; exact hslj⟩
    · intro j p hpj
      by_cases hji : j = i
      · subst hji
        rw [if_pos rfl]
        simp
      · rw [if_neg hji] at hpj
        by_cases hvji : vs j = vs i
        · rw [hvji, if_pos rfl]
          simp
        · rw [if_neg hvji]
          exact h3 j p hpj
    · intro v hsv
      by_cases hvi : v = vs i
      · exact ⟨i, hvi.symm⟩
      · rw [if_neg hvi] at hsv
        exact h4 v hsv
    · intro v
      by_cases hvi : v = vs i
      · subst hvi
        rw [h5 (vs i), hsli, if_pos rfl]
        have hyesf : ∃ j, vs j = vs i ∧ s.pc j = SFPC.fetching := ⟨i, rfl, hpc⟩
        have hnof : ¬ ∃ j, vs j = vs i
            ∧ (if j = i then SFPC.done (f (vs i)) else s.pc j)
              = SFPC.fetching := by
          rintro ⟨j, hvj, hpj⟩
          by_cases hji : j = i
          · subst hji
            rw [if_pos rfl] at hpj
            exact absurd hpj (by simp)
          · rw [if_neg hji] at hpj
            obtain ⟨hlkj, -⟩ := h2 j hpj
            rw [hvj] at hlkj
            rw [hlki] at hlkj
            injection hlkj with hij
            exact hji hij.symm
        rw [if_pos hyesf, if_neg hnof]
        simp
      · rw [if_neg hvi, h5 v]
        congr 1
        have hiff : (∃ j, vs j = v
            ∧ (if j = i then SFPC.done (f (vs i)) else s.pc j)
              = SFPC.fetching)
            ↔ (∃ j, vs j = v ∧ s.pc j = SFPC.fetching) := by
          constructor
          · rintro ⟨j, hvj, hpj⟩
            by_cases hji : j = i
            · subst hji
              rw [if_pos rfl] at hpj
              exact absurd hpj (by simp)
            · rw [if_neg hji] at hpj
              exact ⟨j, hvj, hpj⟩
          · rintro ⟨j, hvj, hpj⟩
            have hji : j ≠ i := fun hh => hvi (by rw [← hvj, hh])
            exact ⟨j, hvj, by rw [if_neg hji]; exact hpj⟩
        exact (if_congr hiff rfl rfl).symm
  | done p =>
    rw [sfStep_done vs f s i p hpc]
    exact h

theorem sfInv_init {n : Nat} {V P : Type} [DecidableEq V] [DecidableEq P]
    (vs : Fin n → V) : sfInv vs (sfInit n V P) := by
  unfold sfInv sfInit
  refine ⟨?_, ?_, ?_, ?_, ?_⟩ <;> simp

theorem sfInv_run {n : Nat} {V P : Type} [DecidableEq V] [DecidableEq P]
    (vs : Fin n → V) (f : V → P) (sched : List (Fin n)) :
    sfInv vs (sfRun vs f sched) := by
  have key : ∀ (l : List (Fin n)) (s : SFState n V P),
      sfInv vs s → sfInv vs (l.foldl (sfStep vs f) s) := by
    intro l
    induction l with
    | nil => intro s hs; exact hs
    | cons a t ih => intro s hs; exact ih _ (sfInv_step vs f s a hs)
  exact key sched _ (sfInv_init vs)

theorem sfInv_final_count {n : Nat} {V P : Type} [DecidableEq V]
    [DecidableEq P] (vs : Fin n → V) (s : SFState n V P) (hinv : sfInv vs s)
    (hdone : ∀ i : Fin n, (s.pc i).isDone = true) (u : V) :
    s.count u = if ∃ i, vs i = u then 1 else 0 := by
  obtain ⟨h1, h2, h3, h4, h5⟩ := hinv
  have hnof : ¬ ∃ j, vs j = u ∧ s.pc j = SFPC.fetching := by
    rintro ⟨j, -, hpj⟩
    have hdj := hdone j
    rw [hpj] at hdj
    exact absurd hdj (by simp [SFPC.isDone])
  rw [h5 u, if_neg hnof]
  by_cases hex : ∃ i, vs i = u
  · obtain ⟨i, hvi⟩ := hex
    have hdi := hdone i
    cases hpci : s.pc i with
    | start => rw [hpci] at hdi; exact absurd hdi (by simp [SFPC.isDone])
    | wantLock => rw [hpci] at hdi; exact absurd hdi (by simp [SFPC.isDone])
    | fetching => rw [hpci] at hdi; exact absurd hdi (by simp [SFPC.isDone])
    | done p =>
      have hslot := h3 i p hpci
      rw [hvi] at hslot
      rw [if_pos hslot, if_pos (⟨i, hvi⟩ : ∃ i, vs i = u)]
  · rw [if_neg hex]
    have hns : ¬ (s.slot u).isSome = true := fun hs => hex (h4 u hs)
    rw [if_neg hns]

/-- C1. For any fetcher that always succeeds (returning `f v` for version
`v`) and any set of concurrent `get(vs i)` invocations, under any schedule
in which every task completes, `fetcher.fetch` is invoked exactly once per
distinct requested version and never for any other version, no matter how
many times a version appears among the requests: the slow path re-checks the
entry slot under the exclusive per-entry lock and fetches only when the slot
is still empty. -/
theorem DownloadCache.single_flight {n : Nat} {V P : Type} [DecidableEq V]
    [DecidableEq P] (vs : Fin n → V) (f : V → P) (sched : List (Fin n))
    (hdone : ∀ i : Fin n, ((sfRun vs f sched).pc i).isDone = true) (u : V) :
    (sfRun vs f sched).count u = if ∃ i, vs i = u then 1 else 0 :=
  sfInv_final_count vs (sfRun vs f sched) (sfInv_run vs f sched) hdone u

/-- C1 witness: two tasks racing for the same version; the schedule lets
task 0 fetch and task 1 then hit the fast path; the count is 1. -/
theorem DownloadCache.single_flight_witness :
    (∀ i : Fin 2,
      ((sfRun (fun _ => (0 : Nat)) (fun v => v) ([0, 0, 0, 1] : List (Fin 2))).pc i).isDone
        = true)
    ∧ (sfRun (fun _ => (0 : Nat)) (fun v => v) ([0, 0, 0, 1] : List (Fin 2))).count 0 = 1 := by
  refine ⟨by decide, ?_⟩
  have h := DownloadCache.single_flight (fun _ => (0 : Nat)) (fun v => v)
    ([0, 0, 0, 1] : List (Fin 2)) (by decide) 0
  rw [if_pos (⟨0, rfl⟩ : ∃ i : Fin 2, (fun _ => (0 : Nat)) i = 0)] at h
  exact h
